import Mathlib

set_option linter.unusedSectionVars false

/-!
Shallow embedding of `src/vl_vector.h` (class `vl_vector<T, static_cap>`), a
variable-length vector that stores elements in a fixed inline array
`_stack_data[static_cap]` while `_cap == static_cap`, and in a heap buffer
`_heap_data` (of length `_cap`) once it has grown beyond the inline capacity.

Modelling conventions:
- `size_t` is modelled by `Nat`; all arithmetic in the operations stays within
  bounds under the caller obligations stated in the source's comments
  (`0 <= first <= last <= size` for erase, `position` inside the container for
  insert), so no wrap-around occurs.
- A raw buffer is a `List α`; slots that C++ leaves default-initialized
  (`new T[cap]`) hold `default : α`.
- `_heap_data == nullptr` is `none`.
- Position handles (`T *` iterators into the active store) are offsets
  (`Nat`) from `data()`, following the source where every returned iterator
  is `data() + offset` for some offset.
- `std::copy` / `std::move` over element ranges of trivially copyable `T`
  lower to overlap-safe `memmove` in the reference implementation, so the
  shifts in `insert`'s in-place branch and in `erase` are modelled as
  overlap-safe block moves of the source range.
-/

namespace VlVec

/-- State of a `vl_vector<T, N>` object: the four private fields
`_stack_data` (always `N` slots), `_heap_data` (optional heap buffer),
`_size` and `_cap` (`src/vl_vector.h` lines 21-24). -/
structure VlVector (α : Type) (N : Nat) where
  stackData : List α
  heapData : Option (List α)
  size : Nat
  cap : Nat
deriving DecidableEq, Repr

variable {α : Type} {N : Nat} [Inhabited α] [DecidableEq α]

/-- The growth function `cap_c` (lines 155-159):
`(size + k <= static_cap) ? static_cap : (int)(GROWTH_FACTOR * (size + k))`
with `GROWTH_FACTOR = 1.5`. The double product `1.5 * (size + k)` is exact
(a multiple of one half) and the `int` cast truncates toward zero, so the
computed value is `floor(3 * (size + k) / 2)`, i.e. `3 * (size + k) / 2`
in natural-number division. -/
def cap_c (N size k : Nat) : Nat :=
  if size + k ≤ N then N else 3 * (size + k) / 2

/-- Target capacity as §4.1 of the spec words it, for comparison with the
code's `cap_c`: the inline capacity `N` when `size + k ≤ N`, otherwise the
floor of the real number `1.5 * (size + k)` (truncation toward zero, per
the spec's §9 open-question resolution). -/
def capSpec (N size k : Nat) : Nat :=
  if size + k ≤ N then N
  else Nat.floor ((1.5 : ℚ) * ((size : ℚ) + (k : ℚ)))

/-- Effect of `std::copy(xs, ..., l + i)`: overwrite the slots of buffer `l`
starting at offset `i` with the elements of `xs`, leaving the rest of `l`
unchanged. -/
def writeRange (l : List α) (i : Nat) (xs : List α) : List α :=
  l.take i ++ xs ++ l.drop (i + xs.length)

/-- The buffer `data()` points at (lines 168-171):
`(_cap == static_cap) ? _stack_data : _heap_data`. -/
def activeStore (v : VlVector α N) : List α :=
  if v.cap = N then v.stackData else v.heapData.getD []

/-- The logical contents of the container: the first `size` elements of the
active store (the range `[data(), data() + _size)`). -/
def toList (v : VlVector α N) : List α :=
  (activeStore v).take v.size

/-- The invariant set of §3 of the spec: the inline store has exactly `N`
slots, `size ≤ capacity`, and `capacity == N` with no heap buffer owned, or
`capacity > N` with a heap buffer of length exactly `capacity`. -/
def WF (v : VlVector α N) : Prop :=
  v.stackData.length = N ∧ v.size ≤ v.cap ∧
    ((v.cap = N ∧ v.heapData = none) ∨
      (N < v.cap ∧ v.heapData.map List.length = some v.cap))

instance (v : VlVector α N) : Decidable (WF v) := by
  unfold WF; infer_instance

/-- The default constructor (lines 28-32): empty, inline-backed. The inline
array is default-initialized. -/
def emptyVec (α : Type) [Inhabited α] (N : Nat) : VlVector α N :=
  { stackData := List.replicate N default, heapData := none,
    size := 0, cap := N }

/-- `insert(position, first, last)` (lines 234-267) with `position` the
offset `p` into the active store and `[first, last)` the list `xs`
(`k = xs.length`). The three branches of the source are translated in order;
each reallocating branch builds the new heap buffer by the three ordered
`std::copy` calls (prefix `[0, p)`, then `xs`, then `[p, size)`), with the
remaining `newCap - (size + k)` slots default-initialized by `new T[newCap]`.
The in-place branch shifts `[p, size)` right by `k` and writes `xs` at `p`.
Returns the updated state and the returned iterator's offset. -/
def insert (v : VlVector α N) (p : Nat) (xs : List α) :
    VlVector α N × Nat :=
  let k := xs.length
  if v.cap = N ∧ v.size + k > v.cap then
    let newCap := cap_c N v.size k
    let newHeap := (v.stackData.take p ++ xs ++
        (v.stackData.drop p).take (v.size - p)) ++
        List.replicate (newCap - (v.size + k)) (default : α)
    ({ stackData := v.stackData, heapData := some newHeap,
       size := v.size + k, cap := newCap }, p)
  else if v.cap ≠ N ∧ v.size + k > v.cap then
    let h := v.heapData.getD []
    let newCap := cap_c N v.size k
    let newHeap := (h.take p ++ xs ++ (h.drop p).take (v.size - p)) ++
        List.replicate (newCap - (v.size + k)) (default : α)
    ({ stackData := v.stackData, heapData := some newHeap,
       size := v.size + k, cap := newCap }, p)
  else
    let s := activeStore v
    let s' := writeRange s p (xs ++ (s.drop p).take (v.size - p))
    if v.cap = N then
      ({ v with stackData := s', size := v.size + k }, p)
    else
      ({ v with heapData := some s', size := v.size + k }, p)

/-- State of the container at the moment `new T[_cap]` throws inside
`insert`: both reallocating branches assign `_cap = cap_c (_size, k)` on the
line before the allocation (lines 242-243 and 251-252), so when the
allocation throws, the exception propagates out of `insert` with `_cap`
already holding the new capacity while `_heap_data` and `_size` are
untouched. -/
def insertAllocFail (v : VlVector α N) (k : Nat) : VlVector α N :=
  { v with cap := cap_c N v.size k }

/-- Whether a call `insert(position, first, last)` with `k` new elements
needs a fresh heap allocation (the guard shared by the two reallocating
branches, lines 240 and 249). -/
def insertNeedsAlloc (v : VlVector α N) (k : Nat) : Prop :=
  v.size + k > v.cap

instance (v : VlVector α N) (k : Nat) : Decidable (insertNeedsAlloc v k) := by
  unfold insertNeedsAlloc; infer_instance

/-- `erase(first, last)` (lines 296-315) with `first`/`last` the offsets
`f`/`l` into the active store (`k = l - f`). The demoting branch copies
`[0, f)` then `[l, size)` from the heap buffer into the inline array,
releases the heap buffer, resets `_cap`, and returns the offset `f`
(`it_1 = _stack_data + f`). The other branch shifts `[l, size)` left onto
`f` and returns the unadjusted offset `l` (`r_value = (iterator) last`).
Returns the updated state and the returned iterator's offset. -/
def erase (v : VlVector α N) (f l : Nat) : VlVector α N × Nat :=
  let k := l - f
  if v.cap ≠ N ∧ v.size - k ≤ N then
    let h := v.heapData.getD []
    let surv := h.take f ++ (h.drop l).take (v.size - l)
    ({ stackData := writeRange v.stackData 0 surv, heapData := none,
       size := v.size - k, cap := N }, f)
  else
    let s := activeStore v
    let s' := writeRange s f ((s.drop l).take (v.size - l))
    if v.cap = N then
      ({ v with stackData := s', size := v.size - k }, l)
    else
      ({ v with heapData := some s', size := v.size - k }, l)

/-- `insert(position, element)` (lines 276-279): single-element insert. -/
def insertOne (v : VlVector α N) (p : Nat) (x : α) : VlVector α N × Nat :=
  insert v p [x]

/-- `push_back(element)` (lines 285-288): insert at `end()`. -/
def push_back (v : VlVector α N) (x : α) : VlVector α N :=
  (insert v v.size [x]).1

/-- `erase(it)` (lines 322-325): single-element erase. -/
def eraseOne (v : VlVector α N) (p : Nat) : VlVector α N × Nat :=
  erase v p (p + 1)

/-- `pop_back()` (lines 330-337): no-op when empty, otherwise erase the
last element. -/
def pop_back (v : VlVector α N) : VlVector α N :=
  if v.size = 0 then v else (erase v (v.size - 1) v.size).1

/-- `clear()` (lines 342-355): reset `_size` to 0 and, when heap-backed,
release the heap buffer and reset `_cap` to `static_cap`. -/
def clear (v : VlVector α N) : VlVector α N :=
  if v.cap = N then { v with size := 0 }
  else { v with heapData := none, size := 0, cap := N }

/-- The range constructor (lines 50-54): default-construct then
`insert (_stack_data, first, last)`, i.e. insert the range at offset 0. -/
def fromRange (N : Nat) (xs : List α) : VlVector α N :=
  (insert (emptyVec α N) 0 xs).1

/-- The count-and-fill constructor (lines 56-69). -/
def fromFill (N : Nat) (count : Nat) (x : α) : VlVector α N :=
  if count ≤ N then
    { stackData := writeRange (List.replicate N (default : α)) 0
        (List.replicate count x),
      heapData := none, size := count, cap := N }
  else
    let c := cap_c N 0 count
    { stackData := List.replicate N (default : α),
      heapData := some (List.replicate count x ++
        List.replicate (c - count) (default : α)),
      size := count, cap := c }

/-- `contains(element)` (lines 182-186): `std::find` over
`[data(), data() + _size)`, returning whether the result differs from the
end of that range. -/
def contains (v : VlVector α N) (x : α) : Bool :=
  (((activeStore v).take v.size).find? (fun y => y == x)).isSome

/-- The error kind raised at the public boundary (`std::out_of_range`). -/
inductive VlError
  | outOfRange
deriving DecidableEq, Repr

/-- `at(i)` (lines 216-221): throw when `i >= _size`, otherwise return
`data()[i]`. Named `atIdx` because `at` is reserved in Lean. -/
def atIdx (v : VlVector α N) (i : Nat) : Except VlError α :=
  if i ≥ v.size then .error .outOfRange
  else .ok ((activeStore v).getD i default)

/-- `operator==` (lines 398-402): sizes equal and the first `_size`
elements of both containers equal pointwise. -/
def beq (v w : VlVector α N) : Bool :=
  v.size == w.size && decide (toList v = toList w)

end VlVec

namespace VlVec

variable {α : Type} {N : Nat} [Inhabited α] [DecidableEq α]

/-- The growth function always returns room for `size + k` elements. -/
theorem le_cap_c (M s k : Nat) : s + k ≤ cap_c M s k := by
  unfold cap_c; split <;> omega

/-- When consulted during growth (`size + k` exceeds the inline capacity),
the growth function exceeds the inline capacity. -/
theorem cap_c_gt (M s k : Nat) (h : M < s + k) : M < cap_c M s k := by
  unfold cap_c; split <;> omega

omit [Inhabited α] [DecidableEq α] in
/-- Writing a range that stays inside the buffer preserves its length. -/
theorem writeRange_length (l xs : List α) (i : Nat)
    (h : i + xs.length ≤ l.length) :
    (writeRange l i xs).length = l.length := by
  simp [writeRange]; omega

omit [Inhabited α] [DecidableEq α] in
/-- A prefix of a list followed by the rest of the list, measured by the
prefix's actual length, restores the list. -/
theorem take_append_drop_len (t : List α) (m : Nat) :
    t.take m ++ t.drop (t.take m).length = t := by
  rcases Nat.le_total m t.length with h | h
  · rw [List.length_take, Nat.min_eq_left h, List.take_append_drop]
  · rw [List.take_of_length_le h, List.drop_of_length_le (by simp), List.append_nil]

omit [Inhabited α] [DecidableEq α] in
/-- Writing back a block that was just read from the same offset is the
identity on the buffer. -/
theorem writeRange_restore (s : List α) (p m : Nat) :
    writeRange s p ((s.drop p).take m) = s := by
  unfold writeRange
  rw [List.append_assoc, ← List.drop_drop, take_append_drop_len,
    List.take_append_drop]

omit [Inhabited α] [DecidableEq α] in
/-- Under the invariant, the heap buffer read through `getD` has length
exactly `capacity` whenever the container is heap-backed. -/
theorem heap_getD_length (v : VlVector α N) (hv : WF v) (h : v.cap ≠ N) :
    (v.heapData.getD []).length = v.cap := by
  obtain ⟨-, -, hc⟩ := hv
  rcases hc with ⟨h1, -⟩ | ⟨-, h2⟩
  · exact absurd h1 h
  · cases hh : v.heapData with
    | none => rw [hh] at h2; simp at h2
    | some l => rw [hh] at h2; simp at h2; simpa [hh] using h2

omit [Inhabited α] [DecidableEq α] in
/-- Under the invariant, the active store has length exactly `capacity`. -/
theorem activeStore_length (v : VlVector α N) (hv : WF v) :
    (activeStore v).length = v.cap := by
  unfold activeStore
  split
  · next h => obtain ⟨h1, -, -⟩ := hv; rw [h1, h]
  · next h => exact heap_getD_length v hv h

omit [Inhabited α] [DecidableEq α] in
/-- Under the invariant, the logical contents have length `size`: the
active store backs all `size` logical elements. -/
theorem toList_length (v : VlVector α N) (hv : WF v) :
    (toList v).length = v.size := by
  have := activeStore_length v hv
  have := hv.2.1
  simp [toList]; omega

omit [Inhabited α] [DecidableEq α] in
/-- Taking a prefix of the logical contents reads the same prefix of the
active store. -/
theorem toList_take (v : VlVector α N) (p : Nat) (hp : p ≤ v.size) :
    (toList v).take p = (activeStore v).take p := by
  rw [toList, List.take_take, Nat.min_eq_left hp]

omit [Inhabited α] [DecidableEq α] in
/-- Dropping a prefix of the logical contents reads a block of the active
store. -/
theorem toList_drop (v : VlVector α N) (p : Nat) :
    (toList v).drop p = ((activeStore v).drop p).take (v.size - p) := by
  rw [toList, List.drop_take]

omit [Inhabited α] [DecidableEq α] in
/-- A buffer built as prefix, new block, shifted suffix and trailing junk
truncates at the new size to exactly the prefix, block and suffix. -/
theorem store_take_core (s : List α) (p n : Nat) (xs tail : List α)
    (hp : p ≤ n) (hn : n ≤ s.length) :
    ((s.take p ++ xs ++ (s.drop p).take (n - p)) ++ tail).take (n + xs.length)
      = s.take p ++ xs ++ (s.drop p).take (n - p) := by
  apply List.take_left'
  simp; omega

omit [Inhabited α] [DecidableEq α] in
/-- Reading inside the truncated range of a buffer is reading the buffer. -/
theorem getD_take (l : List α) (n i : Nat) (d : α) (h : i < n) :
    (l.take n).getD i d = l.getD i d := by
  simp [List.getD_eq_getElem?_getD, List.getElem?_take, h]

end VlVec

namespace VlVec

variable {α : Type} {N : Nat} [Inhabited α] [DecidableEq α]

/-- Core correctness of `insert`: under the invariant and the caller
obligation `p ≤ size` (the position handle points into the container),
inserting `xs` before offset `p` splices `xs` into the logical contents at
`p`, increases `size` by `xs.length`, returns the offset `p` of the first
inserted element, and preserves the invariant. -/
theorem insert_spec (v : VlVector α N) (hv : WF v) (p : Nat) (hp : p ≤ v.size)
    (xs : List α) :
    toList (insert v p xs).1 = (toList v).take p ++ xs ++ (toList v).drop p ∧
    (insert v p xs).1.size = v.size + xs.length ∧
    (insert v p xs).2 = p ∧
    WF (insert v p xs).1 := by
  have hstack := hv.1
  have hsz := hv.2.1
  have hrep := hv.2.2
  have hrhs : (toList v).take p ++ xs ++ (toList v).drop p
      = (activeStore v).take p ++ xs ++
        ((activeStore v).drop p).take (v.size - p) := by
    rw [toList_take v p hp, toList_drop]
  simp only [insert]
  split_ifs with h1 h2 h3
  · -- inline store too small: promote to a fresh heap buffer
    obtain ⟨hcN, hgrow⟩ := h1
    rw [hcN] at hgrow
    have hne : ¬(cap_c N v.size xs.length = N) :=
      (cap_c_gt N v.size xs.length hgrow).ne'
    have hle := le_cap_c N v.size xs.length
    have hs : activeStore v = v.stackData := by simp [activeStore, hcN]
    refine ⟨?_, rfl, rfl, ?_⟩
    · rw [hrhs, hs]
      simp only [toList, activeStore]
      rw [if_neg hne, Option.getD_some]
      exact List.take_left' (by simp [hstack]; omega)
    · refine ⟨hstack, hle, Or.inr ⟨cap_c_gt N v.size xs.length hgrow, ?_⟩⟩
      simp [hstack]
      omega
  · -- heap store too small: replace it by a larger heap buffer
    obtain ⟨hcN, hgrow⟩ := h2
    have hhl : (v.heapData.getD []).length = v.cap := heap_getD_length v hv hcN
    have hcapN : N < v.cap := by
      rcases hrep with ⟨he, -⟩ | ⟨hlt, -⟩
      · exact absurd he hcN
      · exact hlt
    have hne : ¬(cap_c N v.size xs.length = N) :=
      (cap_c_gt N v.size xs.length (by omega)).ne'
    have hle := le_cap_c N v.size xs.length
    have hs : activeStore v = v.heapData.getD [] := by simp [activeStore, hcN]
    refine ⟨?_, rfl, rfl, ?_⟩
    · rw [hrhs, hs]
      simp only [toList, activeStore]
      rw [if_neg hne, Option.getD_some]
      exact List.take_left' (by simp [hhl]; omega)
    · refine ⟨hstack, hle, Or.inr ⟨cap_c_gt N v.size xs.length (by omega), ?_⟩⟩
      simp [hhl]
      omega
  · -- room in the inline store: shift in place
    have hk : v.size + xs.length ≤ v.cap := by
      by_contra hc
      exact h1 ⟨h3, by omega⟩
    have hs : activeStore v = v.stackData := by simp [activeStore, h3]
    have hheap : v.heapData = none := by
      rcases hrep with ⟨-, he⟩ | ⟨hlt, -⟩
      · exact he
      · omega
    rw [hs] at hrhs
    have hcap : v.cap = N := h3
    rw [hcap] at hk hsz
    refine ⟨?_, rfl, rfl, ?_⟩
    · rw [hrhs, hs]
      simp only [toList, activeStore, writeRange]
      rw [if_pos h3]
      rw [← List.append_assoc]
      exact List.take_left' (by simp [hstack]; omega)
    · refine ⟨?_, ?_, Or.inl ⟨h3, hheap⟩⟩
      · show (writeRange (activeStore v) p
            (xs ++ ((activeStore v).drop p).take (v.size - p))).length = N
        rw [hs, writeRange_length]
        · exact hstack
        · simp [hstack]; omega
      · show v.size + xs.length ≤ v.cap
        omega
  · -- room in the heap store: shift in place
    have hk : v.size + xs.length ≤ v.cap := by
      by_contra hc
      exact h2 ⟨h3, by omega⟩
    have hhl : (v.heapData.getD []).length = v.cap := heap_getD_length v hv h3
    have hcapN : N < v.cap := by
      rcases hrep with ⟨he, -⟩ | ⟨hlt, -⟩
      · exact absurd he h3
      · exact hlt
    have hs : activeStore v = v.heapData.getD [] := by simp [activeStore, h3]
    rw [hs] at hrhs
    refine ⟨?_, rfl, rfl, ?_⟩
    · rw [hrhs, hs]
      simp only [toList, activeStore]
      rw [if_neg h3, Option.getD_some]
      simp only [writeRange]
      rw [← List.append_assoc]
      exact List.take_left' (by simp [hhl]; omega)
    · refine ⟨hstack, ?_, Or.inr ⟨hcapN, ?_⟩⟩
      · show v.size + xs.length ≤ v.cap
        omega
      · show Option.map List.length (some (writeRange (activeStore v) p
            (xs ++ ((activeStore v).drop p).take (v.size - p)))) = some v.cap
        rw [Option.map_some', hs, writeRange_length]
        · rw [hhl]
        · simp [hhl]; omega

end VlVec

namespace VlVec

variable {α : Type} {N : Nat} [Inhabited α] [DecidableEq α]

/-- Core correctness of `erase`: under the invariant and the caller
obligation `0 ≤ f ≤ l ≤ size`, erasing the logical range `[f, l)` removes
exactly those elements from the logical contents, decreases `size` by
`l - f`, and preserves the invariant. -/
theorem erase_spec (v : VlVector α N) (hv : WF v) (f l : Nat)
    (hfl : f ≤ l) (hl : l ≤ v.size) :
    toList (erase v f l).1 = (toList v).take f ++ (toList v).drop l ∧
    (erase v f l).1.size = v.size - (l - f) ∧
    WF (erase v f l).1 := by
  have hstack := hv.1
  have hsz := hv.2.1
  have hrep := hv.2.2
  have hrhs : (toList v).take f ++ (toList v).drop l
      = (activeStore v).take f ++
        ((activeStore v).drop l).take (v.size - l) := by
    rw [toList_take v f (le_trans hfl hl), toList_drop]
  simp only [erase]
  split_ifs with h1 h2
  · -- size falls to the inline threshold: demote to the inline store
    obtain ⟨hcN, hdem⟩ := h1
    have hhl : (v.heapData.getD []).length = v.cap := heap_getD_length v hv hcN
    have hs : activeStore v = v.heapData.getD [] := by simp [activeStore, hcN]
    refine ⟨?_, rfl, ?_⟩
    · rw [hrhs, hs]
      simp only [toList, activeStore]
      rw [if_pos trivial]
      simp only [writeRange, List.take_zero, List.nil_append, Nat.zero_add]
      exact List.take_left' (by simp [hhl]; omega)
    · refine ⟨?_, ?_, Or.inl ⟨rfl, rfl⟩⟩
      · show (writeRange v.stackData 0 ((v.heapData.getD []).take f ++
            ((v.heapData.getD []).drop l).take (v.size - l))).length = N
        rw [writeRange_length]
        · exact hstack
        · simp [hstack, hhl]; omega
      · show v.size - (l - f) ≤ N
        omega
  · -- inline-backed: shift the suffix left within the inline store
    have hs : activeStore v = v.stackData := by simp [activeStore, h2]
    have hheap : v.heapData = none := by
      rcases hrep with ⟨-, he⟩ | ⟨hlt, -⟩
      · exact he
      · omega
    have hcap : v.cap = N := h2
    refine ⟨?_, rfl, ?_⟩
    · rw [hrhs, hs]
      simp only [toList, activeStore]
      rw [if_pos h2]
      simp only [writeRange]
      exact List.take_left' (by simp [hstack]; omega)
    · refine ⟨?_, ?_, Or.inl ⟨h2, hheap⟩⟩
      · show (writeRange (activeStore v) f
            (((activeStore v).drop l).take (v.size - l))).length = N
        rw [hs, writeRange_length]
        · exact hstack
        · simp [hstack]; omega
      · show v.size - (l - f) ≤ v.cap
        omega
  · -- heap-backed and still above the threshold: shift within the heap
    have hhl : (v.heapData.getD []).length = v.cap := heap_getD_length v hv h2
    have hcapN : N < v.cap := by
      rcases hrep with ⟨he, -⟩ | ⟨hlt, -⟩
      · exact absurd he h2
      · exact hlt
    have hs : activeStore v = v.heapData.getD [] := by simp [activeStore, h2]
    refine ⟨?_, rfl, ?_⟩
    · rw [hrhs, hs]
      simp only [toList, activeStore]
      rw [if_neg h2, Option.getD_some]
      simp only [writeRange]
      exact List.take_left' (by simp [hhl]; omega)
    · refine ⟨hstack, ?_, Or.inr ⟨hcapN, ?_⟩⟩
      · show v.size - (l - f) ≤ v.cap
        omega
      · show Option.map List.length (some (writeRange (activeStore v) f
            (((activeStore v).drop l).take (v.size - l)))) = some v.cap
        rw [Option.map_some', hs, writeRange_length]
        · rw [hhl]
        · simp [hhl]; omega

end VlVec

namespace VlVec

variable {α : Type} {N : Nat} [Inhabited α] [DecidableEq α]

/-- C3: whenever the growth function is consulted (`size + k` exceeds the
inline capacity), it returns a capacity of at least `size + k`, and it is
monotonic in both of its arguments. -/
theorem C3_growth_sufficient_and_monotone (M s k s1 k1 s2 k2 : Nat)
    (hconsult : M < s + k) (hs : s1 ≤ s2) (hk : k1 ≤ k2) :
    s + k ≤ cap_c M s k ∧ cap_c M s1 k1 ≤ cap_c M s2 k2 := by
  unfold cap_c
  split_ifs <;> omega

theorem C3_growth_sufficient_and_monotone_witness :
    16 + 1 ≤ cap_c 16 16 1 ∧ cap_c 16 10 2 ≤ cap_c 16 11 3 :=
  C3_growth_sufficient_and_monotone 16 16 1 10 2 11 3 (by decide) (by decide)
    (by decide)

/-- C4: the code's growth function agrees everywhere with the spec's
description: `N` when `size + k ≤ N`, and the floor of `1.5 * (size + k)`
(truncated toward zero) otherwise. -/
theorem C4_cap_c_matches_spec (M s k : Nat) : cap_c M s k = capSpec M s k := by
  unfold cap_c capSpec
  split_ifs with h
  · rfl
  · have h32 : (1.5 : ℚ) = 3 / 2 := by norm_num
    have he : (1.5 : ℚ) * ((s : ℚ) + (k : ℚ))
        = ((3 * (s + k) : ℕ) : ℚ) / ((2 : ℕ) : ℚ) := by
      rw [h32]
      push_cast
      ring
    rw [he, Nat.floor_div_nat, Nat.floor_natCast]

end VlVec

namespace VlVec

variable {α : Type} {N : Nat} [Inhabited α] [DecidableEq α]

/-- C5: erasing a range from a heap-backed container so that the size falls
to at most `N` demotes the container: capacity returns to `N`, the heap
buffer is released, and the surviving elements `[0, first)` then
`[last, size)` end up in the inline store in their original relative
order. -/
theorem C5_erase_demotes_to_inline (v : VlVector α N) (hv : WF v)
    (f l : Nat) (hheap : v.cap ≠ N) (hfl : f ≤ l) (hl : l ≤ v.size)
    (hdrop : v.size - (l - f) ≤ N) :
    (erase v f l).1.cap = N ∧ (erase v f l).1.heapData = none ∧
    (erase v f l).1.size = v.size - (l - f) ∧
    toList (erase v f l).1 = (toList v).take f ++ (toList v).drop l := by
  refine ⟨?_, ?_, (erase_spec v hv f l hfl hl).2.1,
    (erase_spec v hv f l hfl hl).1⟩
  · simp only [erase]
    rw [if_pos ⟨hheap, hdrop⟩]
  · simp only [erase]
    rw [if_pos ⟨hheap, hdrop⟩]

theorem C5_erase_demotes_to_inline_witness :
    (erase (fromRange 2 [1, 2, 3]) 0 1).1.cap = 2 ∧
    (erase (fromRange 2 [1, 2, 3]) 0 1).1.heapData = none ∧
    (erase (fromRange 2 [1, 2, 3]) 0 1).1.size =
      (fromRange 2 [1, 2, 3] : VlVector Nat 2).size - (1 - 0) ∧
    toList (erase (fromRange 2 [1, 2, 3]) 0 1).1 =
      (toList (fromRange 2 [1, 2, 3])).take 0 ++
        (toList (fromRange 2 [1, 2, 3])).drop 1 :=
  C5_erase_demotes_to_inline (fromRange 2 [1, 2, 3]) (by decide) 0 1
    (by decide) (by decide) (by decide) (by decide)

/-- C6: checked access `at(i)` raises OutOfRange exactly when `i ≥ size`
(in particular at `i = size`), and for in-range indices returns the `i`-th
logical element; being a `const` query it cannot modify the container,
which the embedding reflects by `atIdx` being a pure function of the
state. -/
theorem C6_at_checked_access (v : VlVector α N) (i : Nat) :
    atIdx v i = (if i ≥ v.size then Except.error VlError.outOfRange
      else Except.ok ((toList v).getD i default)) ∧
    atIdx v v.size = Except.error VlError.outOfRange := by
  constructor
  · unfold atIdx
    split_ifs with h
    · rfl
    · rw [toList, getD_take _ _ _ _ (by omega)]
  · unfold atIdx
    rw [if_pos (Nat.le_refl v.size)]

/-- C7: inserting an element `x` before a valid position `p` and then
erasing the single element at `p` yields a container that `operator==`
reports equal to the original. -/
theorem C7_insert_erase_roundtrip (v : VlVector α N) (hv : WF v) (p : Nat)
    (hp : p ≤ v.size) (x : α) :
    beq (erase (insert v p [x]).1 p (p + 1)).1 v = true := by
  obtain ⟨h1, hsz1, -, hwf1⟩ := insert_spec v hv p hp [x]
  obtain ⟨h2, hsz2, -⟩ := erase_spec (insert v p [x]).1 hwf1 p (p + 1)
    (by omega) (by rw [hsz1]; simp; omega)
  have hA : ((toList v).take p).length = p := by
    rw [List.length_take, toList_length v hv]
    omega
  have h3 : (((toList v).take p ++ [x]) ++ (toList v).drop p).take p
      = (toList v).take p := by
    rw [List.append_assoc]
    exact List.take_left' hA
  have h4 : (((toList v).take p ++ [x]) ++ (toList v).drop p).drop (p + 1)
      = (toList v).drop p :=
    List.drop_left' (by simp [hA])
  have hsz : v.size + [x].length - (p + 1 - p) = v.size := by simp
  simp only [beq, hsz2, hsz1, hsz, h2, h1, h3, h4, List.take_append_drop]
  simp

theorem C7_insert_erase_roundtrip_witness :
    beq (erase (insert (fromRange 2 [5, 6]) 1 [9]).1 1 (1 + 1)).1
      (fromRange 2 [5, 6]) = true :=
  C7_insert_erase_roundtrip (fromRange 2 [5, 6]) (by decide) 1 (by decide) 9

end VlVec

namespace VlVec

variable {α : Type} {N : Nat} [Inhabited α] [DecidableEq α]

/-- C8: every public operation preserves the invariant set: `size ≤
capacity`; `capacity = N` exactly when the inline store is active (with no
heap buffer owned) and `capacity > N` exactly when a heap buffer of length
exactly `capacity` is owned and active; and the active store backs the
first `size` logical elements (the logical contents have length `size`). -/
theorem C8_invariant_preserved (v : VlVector α N) (hv : WF v)
    (p f l c : Nat) (xs : List α) (x y : α)
    (hp : p ≤ v.size) (hfl : f ≤ l) (hl : l ≤ v.size) :
    WF (emptyVec α N) ∧ WF (fromRange N xs) ∧ WF (fromFill N c y) ∧
    WF (insert v p xs).1 ∧ WF (erase v f l).1 ∧ WF (push_back v x) ∧
    WF (pop_back v) ∧ WF (clear v) ∧
    (toList v).length = v.size ∧ (activeStore v).length = v.cap := by
  have hempty : WF (emptyVec α N) := by
    refine ⟨by simp [emptyVec], Nat.zero_le _, Or.inl ⟨rfl, rfl⟩⟩
  refine ⟨hempty, ?_, ?_, (insert_spec v hv p hp xs).2.2.2,
    (erase_spec v hv f l hfl hl).2.2, ?_, ?_, ?_,
    toList_length v hv, activeStore_length v hv⟩
  · unfold fromRange
    exact (insert_spec (emptyVec α N) hempty 0 (Nat.zero_le _) xs).2.2.2
  · unfold fromFill
    split_ifs with hc
    · refine ⟨?_, hc, Or.inl ⟨rfl, rfl⟩⟩
      show (writeRange (List.replicate N (default : α)) 0
        (List.replicate c y)).length = N
      rw [writeRange_length]
      · simp
      · simp
        omega
    · have hle := le_cap_c N 0 c
      refine ⟨by simp, ?_, Or.inr ⟨cap_c_gt N 0 c (by omega), ?_⟩⟩
      · show c ≤ cap_c N 0 c
        omega
      · show Option.map List.length (some (List.replicate c y ++
          List.replicate (cap_c N 0 c - c) (default : α))) = some (cap_c N 0 c)
        simp
        omega
  · unfold push_back
    exact (insert_spec v hv v.size (Nat.le_refl _) [x]).2.2.2
  · unfold pop_back
    split_ifs with h0
    · exact hv
    · exact (erase_spec v hv (v.size - 1) v.size (by omega)
        (Nat.le_refl _)).2.2
  · unfold clear
    split_ifs with hN
    · refine ⟨hv.1, Nat.zero_le _, Or.inl ⟨hN, ?_⟩⟩
      rcases hv.2.2 with ⟨-, he⟩ | ⟨hlt, -⟩
      · exact he
      · omega
    · exact ⟨hv.1, Nat.zero_le _, Or.inl ⟨rfl, rfl⟩⟩

theorem C8_invariant_preserved_witness :
    WF (emptyVec Nat 2) ∧ WF (fromRange 2 [7]) ∧ WF (fromFill 2 3 (1 : Nat)) ∧
    WF (insert (fromRange 2 [5, 6]) 0 [7]).1 ∧
    WF (erase (fromRange 2 [5, 6]) 0 1).1 ∧
    WF (push_back (fromRange 2 [5, 6]) 1) ∧
    WF (pop_back (fromRange 2 [5, 6])) ∧ WF (clear (fromRange 2 [5, 6])) ∧
    (toList (fromRange 2 [5, 6])).length = (fromRange 2 [5, 6] : VlVector Nat 2).size ∧
    (activeStore (fromRange 2 [5, 6])).length = (fromRange 2 [5, 6] : VlVector Nat 2).cap :=
  C8_invariant_preserved (fromRange 2 [5, 6]) (by decide) 0 0 1 3 [7] 1 1
    (by decide) (by decide) (by decide)

/-- C9: inserting an empty range at any valid position is a no-op: the
resulting state (size, capacity, both stores, hence all element values) is
the original state, and the returned position handle is the given one. -/
theorem C9_insert_empty_range_noop (v : VlVector α N) (hv : WF v) (p : Nat)
    (hp : p ≤ v.size) :
    (insert v p ([] : List α)).1 = v ∧ (insert v p ([] : List α)).2 = p := by
  have hsz := hv.2.1
  simp only [insert, List.length_nil, Nat.add_zero, List.nil_append]
  split_ifs with h1 h2 h3
  · exact absurd h1.2 (by omega)
  · exact absurd h2.2 (by omega)
  · constructor
    · rw [writeRange_restore,
        show activeStore v = v.stackData from by simp [activeStore, h3]]
    · rfl
  · constructor
    · have hsome : some (activeStore v) = v.heapData := by
        rcases hv.2.2 with ⟨he, -⟩ | ⟨-, hm⟩
        · exact absurd he h3
        · cases hh : v.heapData with
          | none => rw [hh] at hm; simp at hm
          | some hl => simp [activeStore, h3, hh]
      rw [writeRange_restore, hsome]
    · rfl

theorem C9_insert_empty_range_noop_witness :
    (insert (fromRange 2 [5, 6]) 1 ([] : List Nat)).1 = fromRange 2 [5, 6] ∧
    (insert (fromRange 2 [5, 6]) 1 ([] : List Nat)).2 = 1 :=
  C9_insert_empty_range_noop (fromRange 2 [5, 6]) (by decide) 1 (by decide)

/-- C10: `contains(x)` returns true exactly when `x` compares equal to one
of the first `size` logical elements; the embedding's `contains` is a pure
function of the state, reflecting that the `const` query has no side
effect. -/
theorem C10_contains_iff_mem (v : VlVector α N) (x : α) :
    contains v x = true ↔ x ∈ toList v := by
  rw [contains, ← toList, List.find?_isSome]
  constructor
  · rintro ⟨y, hy, he⟩
    rwa [show y = x from by simpa using he] at hy
  · intro hx
    exact ⟨x, hx, by simp⟩

end VlVec

namespace VlVec

/-- C1: evidence against the claim. On the inline-backed container holding
`[10, 20, 30, 40, 50]` (with `N = 16`), erasing the logical range `[1, 2)`
leaves `[10, 30, 40, 50]`, whose first element after the erased range is
`30` at offset 1; but `erase`'s non-demoting branch returns the unadjusted
offset `last = 2` (`r_value = (iterator) last`, line 298), which after the
left shift holds `40` and is neither the first element after the erased
range at its new location (offset 1) nor the new end-sentinel (offset 4). -/
theorem C1_erase_returns_stale_position :
    toList (fromRange 16 [10, 20, 30, 40, 50] : VlVector Nat 16)
      = [10, 20, 30, 40, 50] ∧
    (erase (fromRange 16 [10, 20, 30, 40, 50]) 1 2).2 = 2 ∧
    toList (erase (fromRange 16 [10, 20, 30, 40, 50]) 1 2).1
      = [10, 30, 40, 50] ∧
    decide ((erase (fromRange 16 [10, 20, 30, 40, 50]) 1 2).2 = 1) = false ∧
    decide ((erase (fromRange 16 [10, 20, 30, 40, 50]) 1 2).2
      = (erase (fromRange 16 [10, 20, 30, 40, 50]) 1 2).1.size) = false := by
  decide

/-- C2: evidence against the claim. On the full inline container
`[1, 2]` with `N = 2`, a single-element insert needs a new heap allocation
(`size + 1 > capacity`); the code assigns `_cap = cap_c (_size, k)` before
calling `new T[_cap]`, so if that allocation throws, the propagated state
has `capacity = 4` while still owning no heap buffer: it differs from the
pre-operation state and violates the invariant set, contradicting strong
exception safety. -/
theorem C2_alloc_failure_mutates_state :
    insertNeedsAlloc (fromRange 2 [1, 2] : VlVector Nat 2) 1 ∧
    (fromRange 2 [1, 2] : VlVector Nat 2).cap = 2 ∧
    (insertAllocFail (fromRange 2 [1, 2]) 1).cap = 4 ∧
    (insertAllocFail (fromRange 2 [1, 2]) 1).heapData = none ∧
    decide (insertAllocFail (fromRange 2 [1, 2]) 1 = fromRange 2 [1, 2])
      = false ∧
    decide (WF (insertAllocFail (fromRange 2 [1, 2]) 1)) = false := by
  decide

end VlVec
